import Mathlib

/-!
Verification of the zoro/raito bridge-node specification against the source.

The development shallowly embeds the Rust code of the repository:
machine integers are `Nat` with explicit `% 2 ^ w` where overflow matters,
fallible code returns `Option`, byte strings are `List Nat` (each entry a
byte value), and hex strings are Lean `String`s.
-/

/-! ## Byte and word helpers -/

/-- One 32-bit word as its four little-endian bytes (Rust `u32::to_le_bytes`). -/
def wordToLeBytes (w : Nat) : List Nat :=
  [w % 256, w / 256 % 256, w / 65536 % 256, w / 16777216 % 256]

/-- Little-endian 32-bit words from a byte list (groups of four, as in
`u32::from_le_bytes` over chunks; a trailing short group is zero-padded). -/
def bytesToWordsLE : List Nat → List Nat
  | b0 :: b1 :: b2 :: b3 :: rest =>
      (b0 + 256 * b1 + 65536 * b2 + 16777216 * b3) :: bytesToWordsLE rest
  | [] => []
  | l => [l.foldr (fun b acc => b + 256 * acc) 0]

/-- Big-endian 32-bit words from a byte list (Rust `chunks_exact(4)` with
`u32::from_be_bytes`; a trailing partial chunk is dropped, as in the source). -/
def beWordsOfBytes : List Nat → List Nat
  | b0 :: b1 :: b2 :: b3 :: rest =>
      (((b0 * 256 + b1) * 256 + b2) * 256 + b3) :: beWordsOfBytes rest
  | _ => []

/-- Big-endian byte encoding of `n` on `len` bytes (Rust `to_be_bytes`). -/
def natToBeBytes (len n : Nat) : List Nat :=
  (List.range len).map (fun i => n / 256 ^ (len - 1 - i) % 256)

/-- Concatenate a list of byte/word lists. -/
def flattenL : List (List Nat) → List Nat
  | [] => []
  | l :: ls => l ++ flattenL ls

/-- Serialize a word list to bytes with little-endian per-word encoding. -/
def wordsToLeBytes (ws : List Nat) : List Nat := flattenL (ws.map wordToLeBytes)

/-- Reverse each exact 4-byte chunk in place (Rust `chunks_exact_mut(4)` with
`chunk.reverse()`; a trailing partial chunk is left untouched). -/
def reverseChunks4 : List Nat → List Nat
  | b0 :: b1 :: b2 :: b3 :: rest => b3 :: b2 :: b1 :: b0 :: reverseChunks4 rest
  | l => l

/-- Lowercase hex digit characters. -/
def hexChars : List Char := "0123456789abcdef".toList

/-- Two lowercase hex characters of one byte. -/
def hexOfByte (b : Nat) : List Char :=
  [hexChars.getD (b / 16) '0', hexChars.getD (b % 16) '0']

/-- Hex string of a byte list with the `0x` prefix, as `format ("0x{}", hex::encode bytes)`. -/
def hexOfBytes (bytes : List Nat) : String :=
  String.mk ('0' :: 'x' :: flattenLChar (bytes.map hexOfByte))
where
  flattenLChar : List (List Char) → List Char
    | [] => []
    | l :: ls => l ++ flattenLChar ls

/-! ## Blake2s-256 (RFC 7693), as used by `stwo` `Blake2sHasher` -/

/-- Blake2s initialization vector. -/
def blakeIV : List Nat :=
  [1779033703, 3144134277, 1013904242, 2773480762,
   1359893119, 2600822924, 528734635, 1541459225]

/-- Blake2s message schedule (10 rounds). -/
def blakeSigma : List (List Nat) :=
  [[0, 1, 2, 3, 4, 5, 6, 7, 8, 9, 10, 11, 12, 13, 14, 15],
   [14, 10, 4, 8, 9, 15, 13, 6, 1, 12, 0, 2, 11, 7, 5, 3],
   [11, 8, 12, 0, 5, 2, 15, 13, 10, 14, 3, 6, 7, 1, 9, 4],
   [7, 9, 3, 1, 13, 12, 11, 14, 2, 6, 5, 10, 4, 0, 15, 8],
   [9, 0, 5, 7, 2, 4, 10, 15, 14, 1, 11, 12, 6, 8, 3, 13],
   [2, 12, 6, 10, 0, 11, 8, 3, 4, 13, 7, 5, 15, 14, 1, 9],
   [12, 5, 1, 15, 14, 13, 4, 10, 0, 7, 6, 3, 9, 2, 8, 11],
   [13, 11, 7, 14, 12, 1, 3, 9, 5, 0, 15, 4, 8, 6, 2, 10],
   [6, 15, 14, 9, 11, 3, 0, 8, 12, 2, 13, 7, 1, 4, 10, 5],
   [10, 2, 8, 4, 7, 6, 1, 5, 15, 11, 9, 14, 3, 12, 13, 0]]

/-- Addition modulo `2 ^ 32`. -/
def add32 (a b : Nat) : Nat := (a + b) % 4294967296

/-- Bitwise xor (inputs below `2 ^ 32`). -/
def xor32 (a b : Nat) : Nat := a ^^^ b

/-- Right rotation of a 32-bit word. -/
def rotr32 (x n : Nat) : Nat := ((x >>> n) ||| (x <<< (32 - n))) % 4294967296

/-- Blake2s G mixing function on the 16-word working vector. -/
def gMix (v : List Nat) (a b c d x y : Nat) : List Nat :=
  let va := add32 (add32 (v.getD a 0) (v.getD b 0)) x
  let vd := rotr32 (xor32 (v.getD d 0) va) 16
  let vc := add32 (v.getD c 0) vd
  let vb := rotr32 (xor32 (v.getD b 0) vc) 12
  let va2 := add32 (add32 va vb) y
  let vd2 := rotr32 (xor32 vd va2) 8
  let vc2 := add32 vc vd2
  let vb2 := rotr32 (xor32 vb vc2) 7
  (((v.set a va2).set b vb2).set c vc2).set d vd2

/-- One Blake2s round over the working vector `v` with message words `m`
and schedule row `s`. -/
def roundMix (m s v : List Nat) : List Nat :=
  let mi := fun i => m.getD (s.getD i 0) 0
  let v1 := gMix v 0 4 8 12 (mi 0) (mi 1)
  let v2 := gMix v1 1 5 9 13 (mi 2) (mi 3)
  let v3 := gMix v2 2 6 10 14 (mi 4) (mi 5)
  let v4 := gMix v3 3 7 11 15 (mi 6) (mi 7)
  let v5 := gMix v4 0 5 10 15 (mi 8) (mi 9)
  let v6 := gMix v5 1 6 11 12 (mi 10) (mi 11)
  let v7 := gMix v6 2 7 8 13 (mi 12) (mi 13)
  gMix v7 3 4 9 14 (mi 14) (mi 15)

/-- Blake2s compression function `F(h, m, t, f)`. -/
def blakeCompress (h m : List Nat) (t : Nat) (last : Bool) : List Nat :=
  let v0 := h ++ blakeIV
  let v1 := v0.set 12 (xor32 (v0.getD 12 0) (t % 4294967296))
  let v2 := v1.set 13 (xor32 (v1.getD 13 0) (t / 4294967296 % 4294967296))
  let v3 := if last then v2.set 14 (xor32 (v2.getD 14 0) 4294967295) else v2
  let vf := blakeSigma.foldl (fun v s => roundMix m s v) v3
  (List.range 8).map (fun i => xor32 (xor32 (h.getD i 0) (vf.getD i 0)) (vf.getD (i + 8) 0))

/-- Process the message 64-byte block by block; `processed` counts the bytes
already consumed (the Blake2s byte counter).  The first argument is fuel,
instantiated large enough to cover the whole message so that the recursion
is structural. -/
def blakeBlocks : Nat → List Nat → List Nat → Nat → List Nat
  | 0, h, _, _ => h
  | fuel + 1, h, data, processed =>
      if data.length ≤ 64 then
        blakeCompress h
          (bytesToWordsLE (data ++ List.replicate (64 - data.length) 0))
          (processed + data.length) true
      else
        blakeBlocks fuel
          (blakeCompress h (bytesToWordsLE (data.take 64)) (processed + 64) false)
          (data.drop 64) (processed + 64)

/-- Blake2s-256 of a byte list, returned as 32 output bytes. -/
def blake2s256 (data : List Nat) : List Nat :=
  let h0 := (blakeIV.set 0 (xor32 (blakeIV.getD 0 0) 0x01010020))
  wordsToLeBytes (blakeBlocks (data.length / 64 + 1) h0 data 0)

/-! ## Chain state and its Blake2s digest
(`crates/raito-spv-verify/src/proof.rs`, `ChainState::blake2s_digest`) -/

/-- Snapshot of the consensus chain state
(struct `ChainState` in `raito-spv-verify/src/proof.rs`).
`totalWork` is a `u128`; `bestBlockHash` holds the 32 bytes of
`zebra_chain::block::Hash` in its internal byte order (the reverse of the
big-endian display hex); `currentTarget` and each entry of
`powTargetHistory` hold the 32 big-endian bytes of a `Target`. -/
structure RChainState where
  blockHeight : Nat
  totalWork : Nat
  bestBlockHash : List Nat
  currentTarget : List Nat
  prevTimestamps : List Nat
  epochStartTime : Nat
  powTargetHistory : List (List Nat)
deriving DecidableEq

/-- Word vector built by `ChainState::blake2s_digest`, in the exact push
order of the source: height, total work, best block hash, current target,
previous timestamps, PoW target history, and epoch start time last. -/
def chainStateWords (s : RChainState) : List Nat :=
  [s.blockHeight]
    ++ beWordsOfBytes (List.replicate 16 0 ++ natToBeBytes 16 s.totalWork)
    ++ beWordsOfBytes s.bestBlockHash
    ++ beWordsOfBytes s.currentTarget
    ++ s.prevTimestamps
    ++ flattenL (s.powTargetHistory.map beWordsOfBytes)
    ++ [s.epochStartTime]

/-- The chain-state word vector in the order the specification describes it
(section 4.6): `epoch_start_time` directly after the `current_target` words
and before `prev_timestamps`, with the `pow_target_history` words last.
This definition follows the spec text, to be compared with
`chainStateWords`, which follows the source. -/
def chainStateWordsSpecOrder (s : RChainState) : List Nat :=
  [s.blockHeight]
    ++ beWordsOfBytes (List.replicate 16 0 ++ natToBeBytes 16 s.totalWork)
    ++ beWordsOfBytes s.bestBlockHash
    ++ beWordsOfBytes s.currentTarget
    ++ [s.epochStartTime]
    ++ s.prevTimestamps
    ++ flattenL (s.powTargetHistory.map beWordsOfBytes)

/-- Full `ChainState::blake2s_digest`: serialize the words little-endian,
hash with Blake2s, reverse each 4-byte chunk of the digest, and format as a
`0x`-prefixed hex string. -/
def chainStateBlake2sDigest (s : RChainState) : String :=
  hexOfBytes (reverseChunks4 (blake2s256 (wordsToLeBytes (chainStateWords s))))

/-- Scenario 1 chain state: the Bitcoin genesis state of the specification.
The best block hash `000000000019d668...0a8ce26f` is given in the internal
(reversed) byte order of `zebra_chain::block::Hash`, and `current_target`
`26959535291011309493156476344723991336010898738574164086137773096960`
equals `0x00000000ffff0000...0000` in big-endian bytes. -/
def scenario1State : RChainState where
  blockHeight := 0
  totalWork := 4295032833
  bestBlockHash :=
    [111, 226, 140, 10, 182, 241, 179, 114, 193, 166, 162, 70, 174, 99, 247, 79,
     147, 30, 131, 101, 225, 90, 8, 156, 104, 214, 25, 0, 0, 0, 0, 0]
  currentTarget :=
    [0, 0, 0, 0, 255, 255, 0, 0, 0, 0, 0, 0, 0, 0, 0, 0,
     0, 0, 0, 0, 0, 0, 0, 0, 0, 0, 0, 0, 0, 0, 0, 0]
  prevTimestamps := [1231006505]
  epochStartTime := 1231006505
  powTargetHistory := []

set_option maxRecDepth 100000

/-- C2: for the chain state with block_height 0, total_work 4295032833,
best_block_hash 000000000019d6689c085ae165831e934ff763ae46a2a6c172b3f1b60a8ce26f,
current_target 26959535291011309493156476344723991336010898738574164086137773096960,
epoch_start_time 1231006505, prev_timestamps [1231006505] and no
pow_target_history entries, `ChainState::blake2s_digest` returns
0x6002eaa4410bd0b15e778656f84fc895fd091827e27ce697ba4231076c70c43b. -/
theorem scenario1_digest_stable :
    chainStateBlake2sDigest scenario1State =
      "0x6002eaa4410bd0b15e778656f84fc895fd091827e27ce697ba4231076c70c43b" := by
  decide

/-- Concrete chain state distinguishing the source word order from the word
order the specification describes (the timestamp 7 and the epoch start 9
appear in different positions). -/
def c3State : RChainState where
  blockHeight := 1
  totalWork := 0
  bestBlockHash := List.replicate 32 0
  currentTarget := List.replicate 32 0
  prevTimestamps := [7]
  epochStartTime := 9
  powTargetHistory := []

/-- C3 counterexample: the word vector hashed by `ChainState::blake2s_digest`
does NOT place `epoch_start_time` between the `current_target` words and the
`prev_timestamps` words: on `c3State` the source order differs from the order
the claim describes. -/
theorem chainState_word_order_counterexample :
    chainStateWords c3State ≠ chainStateWordsSpecOrder c3State := by
  decide

/-- C3 (amended): for every chain state, the word vector hashed by
`ChainState::blake2s_digest` places the `prev_timestamps` words directly
after the `current_target` words, then the `pow_target_history` words, and
`epoch_start_time` comes last. -/
theorem chainState_word_order :
    ∀ s : RChainState,
      ∃ pre,
        chainStateWords s =
          pre ++ (s.prevTimestamps
            ++ flattenL (s.powTargetHistory.map beWordsOfBytes)
            ++ [s.epochStartTime])
        ∧ pre =
            [s.blockHeight]
              ++ beWordsOfBytes (List.replicate 16 0 ++ natToBeBytes 16 s.totalWork)
              ++ beWordsOfBytes s.bestBlockHash
              ++ beWordsOfBytes s.currentTarget := by
  intro s
  refine ⟨_, ?_, rfl⟩
  simp [chainStateWords]

/-! ## Chain-state manager transition
(`crates/raito-bridge-node/src/chain_state.rs`, `ChainStateManager`) -/

/-- Block-header fields the chain-state manager reads.  The canonical block
hash is computed by the collaborating node client and treated as an opaque
32-byte value, so it is carried as a field here. -/
structure ZHeader where
  time : Nat
  difficultyThreshold : Nat
  hashBytes : List Nat

/-- Modelled from the spec: `target(header.bits)` — the expansion of the
compact difficulty (`zebra_chain` `CompactDifficulty::to_expanded`, not under
`src/`).  Standard compact encoding: high byte is the exponent, low 23 bits
the mantissa, bit 23 the sign; a negative target is unparseable (`None`). -/
def expandTarget (bits : Nat) : Option Nat :=
  let exp := bits >>> 24
  let mantissa := bits % 8388608
  if bits / 8388608 % 2 = 1 then none
  else if exp ≤ 3 then some (mantissa >>> (8 * (3 - exp)))
  else some (mantissa <<< (8 * (exp - 3)))

/-- Modelled from the spec: `work_of(header) = floor(2 ^ 256 / (target + 1))`
(`zebra_chain` `Work::try_from` followed by `as_u128`, not under `src/`);
the `expect` panic when the work value is not finite/representable is
modelled as `none`. -/
def workFromTarget (target : Nat) : Option Nat :=
  let w := 2 ^ 256 / (target + 1)
  if w < 2 ^ 128 then some w else none

/-- The `checked_add` of `ChainStateManager::compute_total_work`: the
`expect` panic on `u128` overflow is modelled as `none`; the sum is never
wrapped. -/
def computeTotalWork (prevTotalWork work : Nat) : Option Nat :=
  if prevTotalWork + work < 2 ^ 128 then some (prevTotalWork + work) else none

/-- Full `ChainStateManager::compute_total_work` on the expanded target. -/
def computeTotalWorkFromTarget (prevTotalWork target : Nat) : Option Nat :=
  match workFromTarget target with
  | none => none
  | some w => computeTotalWork prevTotalWork w

/-- State transition of `ChainStateManager::update` (the store writes are
performed by the caller's transaction and are not part of the pure
transition).  `none` models an error or panic. -/
def chainStateUpdate (prev : RChainState) (blockHeight : Nat) (hdr : ZHeader) :
    Option RChainState :=
  if blockHeight = 0 then some prev
  else
    let prevTs0 :=
      if prev.prevTimestamps.length = 28 then prev.prevTimestamps.drop 1
      else prev.prevTimestamps
    let prevTs := prevTs0 ++ [hdr.time]
    match expandTarget hdr.difficultyThreshold with
    | none => none
    | some target =>
      let currentTarget := natToBeBytes 32 target
      match computeTotalWorkFromTarget prev.totalWork target with
      | none => none
      | some totalWork =>
        let powHist0 :=
          if prev.powTargetHistory.isEmpty then List.replicate 17 currentTarget
          else if prev.powTargetHistory.length = 17 then prev.powTargetHistory.drop 1
          else prev.powTargetHistory
        let powHist := powHist0 ++ [currentTarget]
        let epochStartTime :=
          if blockHeight % 2016 = 0 then hdr.time else prev.epochStartTime
        some { blockHeight := blockHeight
               totalWork := totalWork
               bestBlockHash := hdr.hashBytes
               currentTarget := currentTarget
               prevTimestamps := prevTs
               epochStartTime := epochStartTime
               powTargetHistory := powHist }

/-- C7: adding work to the predecessor total work fails (`none`, modelling
the `expect` panic) whenever the `u128` capacity would be exceeded, and any
produced total work is the exact (unwrapped) sum. -/
theorem computeTotalWork_rejects_overflow :
    ∀ prevTotalWork work : Nat,
      (2 ^ 128 ≤ prevTotalWork + work → computeTotalWork prevTotalWork work = none)
      ∧ (∀ t, computeTotalWork prevTotalWork work = some t →
          t = prevTotalWork + work ∧ t < 2 ^ 128) := by
  intro prevTotalWork work
  constructor
  · intro hge
    simp [computeTotalWork]
    omega
  · intro t ht
    simp only [computeTotalWork] at ht
    split at ht
    · cases ht
      exact ⟨rfl, by assumption⟩
    · cases ht

/-- Witness for C7 at the concrete input `(2 ^ 127, 2 ^ 127)`. -/
theorem computeTotalWork_rejects_overflow_witness :
    2 ^ 128 ≤ 2 ^ 127 + 2 ^ 127 ∧ computeTotalWork (2 ^ 127) (2 ^ 127) = none :=
  ⟨by norm_num, (computeTotalWork_rejects_overflow (2 ^ 127) (2 ^ 127)).1 (by norm_num)⟩

/-- C10: for every height `h > 0` and every header whose difficulty field
parses (and whose work does not overflow, the panic case covered separately),
`ChainStateManager::update` succeeds and produces a state whose
`block_height` is exactly the passed height — with NO hypothesis relating
`h` to the predecessor state's `block_height`: a non-successor height is not
rejected. -/
theorem chainStateUpdate_no_successor_check :
    ∀ (prev : RChainState) (h : Nat) (hdr : ZHeader) (target w : Nat),
      0 < h →
      expandTarget hdr.difficultyThreshold = some target →
      workFromTarget target = some w →
      prev.totalWork + w < 2 ^ 128 →
      ∃ st, chainStateUpdate prev h hdr = some st ∧ st.blockHeight = h := by
  intro prev h hdr target w hpos hexp hwork hsum
  simp only [chainStateUpdate, Nat.pos_iff_ne_zero.mp hpos, if_false, hexp,
    computeTotalWorkFromTarget, hwork, computeTotalWork, if_pos hsum]
  exact ⟨_, rfl, rfl⟩

/-- Header used by the C10 witness: the Bitcoin genesis difficulty
`0x1d00ffff`. -/
def c10Header : ZHeader where
  time := 123
  difficultyThreshold := 486604799
  hashBytes := List.replicate 32 0

/-- Witness for C10: the predecessor state has height 0, yet `update` at the
non-successor height 5 succeeds and commits height 5. -/
theorem chainStateUpdate_no_successor_check_witness :
    scenario1State.blockHeight + 1 ≠ 5
    ∧ ∃ st, chainStateUpdate scenario1State 5 c10Header = some st ∧ st.blockHeight = 5 :=
  ⟨by decide,
   chainStateUpdate_no_successor_check scenario1State 5 c10Header
     (65535 * 2 ^ 208) (2 ^ 256 / (65535 * 2 ^ 208 + 1))
     (by decide) (by decide) (by decide) (by decide)⟩

/-! ## Zoro verifier work check (`crates/zoro-spv-verify/src/work.rs`) -/

/-- Modelled from the spec: the Zcash-lineage chain state (section 3) of the
zoro verifier, whose `proof.rs` module is not under `src/`.  Its contents are
irrelevant to the work check, which ignores every field. -/
structure ZoroChainState where
  blockHeight : Nat
  totalWork : Nat
  bestBlockHash : List Nat
  currentTarget : Nat
  prevTimestamps : List Nat
  epochStartTime : Nat
  powTargetHistory : List Nat

/-- Configuration parameters of the zoro verifier
(struct `VerifierConfig` in `zoro-spv-verify/src/verify.rs`). -/
structure ZoroVerifierConfig where
  minWork : String
  bootloaderHash : String
  taskProgramHash : String
  taskOutputSize : Nat
  minConfirmations : Nat

/-- The zoro variant of `verify_subchain_work`: the body is a bare
`Ok(())` (marked `ToDo!!` in the source); all three arguments are unused. -/
def zoroVerifySubchainWork (blockHeight : Nat) (chainState : ZoroChainState)
    (config : ZoroVerifierConfig) : Except String Unit :=
  Except.ok ()

/-- C9: the zoro verifier's `verify_subchain_work` returns `Ok(())` for every
block height, chain state, and config — no minimum-work or confirmation
policy is enforced by this function. -/
theorem zoroVerifySubchainWork_always_ok :
    ∀ (blockHeight : Nat) (chainState : ZoroChainState) (config : ZoroVerifierConfig),
      zoroVerifySubchainWork blockHeight chainState config = Except.ok () :=
  fun _ _ _ => rfl

/-! ## Cairo U256 serializers (`crates/raito-cairo-serialize/src/lib.rs`) -/

/-- The felt sequence of `U256String::serialize` on the parsed decimal value
`n`: the source splits the 32 big-endian bytes at 16, binding `hi16` to the
most-significant half and `lo16` to the least-significant half, and pushes
the LOW half first.  The `assert!(bytes.len() <= 32)` panic for values of
257 bits or more is modelled as `none`. -/
def u256StringFelts (n : Nat) : Option (List Nat) :=
  if n < 2 ^ 256 then some [n % 2 ^ 128, n / 2 ^ 128] else none

/-- The felt sequence of `U256StringLittleEndian::serialize` on the parsed
decimal value `n`: the source destructures `be.split_at(16)` as
`(lo16, hi16)`, so the name `lo16` is bound to the MOST-significant half;
pushing `lo_bytes` first therefore emits the HIGH half first. -/
def u256StringLittleEndianFelts (n : Nat) : Option (List Nat) :=
  if n < 2 ^ 256 then some [n / 2 ^ 128, n % 2 ^ 128] else none

/-- C8: the two U256 serializer variants emit the 128-bit halves in opposite
orders, and there is a decimal U256 input (for example `2 ^ 128`) on which
the two felt sequences differ. -/
theorem u256_serializer_variants_differ :
    (∀ n : Nat, n < 2 ^ 256 →
      u256StringLittleEndianFelts n = (u256StringFelts n).map List.reverse)
    ∧ ∃ n : Nat, n < 2 ^ 256 ∧ u256StringFelts n ≠ u256StringLittleEndianFelts n := by
  constructor
  · intro n hn
    simp [u256StringFelts, u256StringLittleEndianFelts, hn]
  · exact ⟨2 ^ 128, by norm_num, by decide⟩

/-! ## Raito verifier work check (`crates/raito-spv-verify/src/work.rs`) -/

/-- The `compute_work_from_target` helper: `max_work` is the decimal constant
`2 ^ 256` and the work is `max_work / (target + 1)` (`BigUint` division). -/
def computeWorkFromTarget (target : Nat) : Nat := 2 ^ 256 / (target + 1)

/-- The epoch loop of `verify_subchain_work`, iterating over
`(end_epoch..=start_epoch).rev()`.  The fuel argument is the number of
epochs in the (possibly empty) range; `epoch` starts at `start_epoch` and
decreases while `target` quadruples.  The `u32` subtraction
`start_block - end_block` panics on underflow, modelled as `none`. -/
def subchainWorkLoop (tipHeight blockHeight : Nat) :
    Nat → Nat → Nat → Nat → Option Nat
  | 0, _, _, acc => some acc
  | fuel + 1, epoch, target, acc =>
      let startBlock := min (2016 * (epoch + 1)) tipHeight
      let endBlock := max (2016 * epoch) blockHeight
      if startBlock < endBlock then none
      else
        subchainWorkLoop tipHeight blockHeight fuel (epoch - 1) (target * 4)
          (acc + computeWorkFromTarget target * (startBlock - endBlock))

/-- The raito variant of `verify_subchain_work`.  `blockHeight` is the target
block's height, `tipHeight` the chain state's `block_height`, and
`currentTarget` the chain state's parsed `current_target`; `minWork` is the
parsed `config.min_work`.  `some true` models `Ok(())`, `some false` the
insufficient-work bail, and `none` a panic. -/
def verifySubchainWork (blockHeight tipHeight currentTarget minWork : Nat) :
    Option Bool :=
  let startEpoch := tipHeight / 2016
  let endEpoch := blockHeight / 2016
  (subchainWorkLoop tipHeight blockHeight (startEpoch + 1 - endEpoch) startEpoch
      currentTarget 0).map
    (fun w => decide (minWork ≤ w))

/-- Default `min_work` of `VerifierConfig::default()`:
the decimal constant 1813388729421943762059264, i.e. `6 * 2 ^ 78`. -/
def defaultMinWork : Nat := 1813388729421943762059264

/-- C6: with the default `min_work` of `6 * 2 ^ 78`, for a target block at
height `H` and a chain state at height `H + 6` in the same 2016-block epoch
whose current target `T` satisfies `2 ^ 256 / (T + 1) = 2 ^ 78`,
`verify_subchain_work` succeeds; with the chain state at height `H + 5`
under the same conditions it fails. -/
theorem verifySubchainWork_six_confirmations :
    ∀ (H T : Nat),
      (H + 6) / 2016 = H / 2016 →
      2 ^ 256 / (T + 1) = 2 ^ 78 →
      verifySubchainWork H (H + 6) T defaultMinWork = some true
      ∧ verifySubchainWork H (H + 5) T defaultMinWork = some false := by
  intro H T hepoch hwork
  have hepoch5 : (H + 5) / 2016 = H / 2016 := by omega
  have key : ∀ d m : Nat, (H + d) / 2016 = H / 2016 →
      verifySubchainWork H (H + d) T m = some (decide (m ≤ 2 ^ 78 * d)) := by
    intro d m hd
    have h1 : 2016 * (H / 2016) ≤ H := by omega
    have h2 : H + d ≤ 2016 * (H / 2016 + 1) := by omega
    simp only [verifySubchainWork, hd, Nat.add_sub_cancel_left]
    simp only [subchainWorkLoop, Nat.min_eq_right h2, Nat.max_eq_right h1]
    rw [if_neg (by omega)]
    simp only [computeWorkFromTarget, hwork]
    have h3 : H + d - H = d := by omega
    rw [h3]
    simp [Option.map]
  refine ⟨?_, ?_⟩
  · rw [key 6 defaultMinWork hepoch]
    decide
  · rw [key 5 defaultMinWork hepoch5]
    decide


/-- Witness for C6 at `H = 1000`, `T = 2 ^ 178 - 1` (whose work is exactly
`2 ^ 78`). -/
theorem verifySubchainWork_six_confirmations_witness :
    ((1000 + 6) / 2016 = 1000 / 2016 ∧ 2 ^ 256 / (2 ^ 178 - 1 + 1) = 2 ^ 78)
    ∧ verifySubchainWork 1000 (1000 + 6) (2 ^ 178 - 1) defaultMinWork = some true
    ∧ verifySubchainWork 1000 (1000 + 5) (2 ^ 178 - 1) defaultMinWork = some false := by
  refine ⟨⟨by norm_num, by norm_num⟩, ?_, ?_⟩
  · exact (verifySubchainWork_six_confirmations 1000 (2 ^ 178 - 1)
      (by norm_num) (by norm_num)).1
  · exact (verifySubchainWork_six_confirmations 1000 (2 ^ 178 - 1)
      (by norm_num) (by norm_num)).2

/-! ## Indexer loop event order
(`crates/zoro-bridge-node/src/indexer.rs` and
`crates/raito-bridge-node/src/indexer.rs`, `Indexer::run_inner`) -/

/-- Store and accumulator operations performed while processing one block in
an indexer loop iteration. -/
inductive IndexerEvent where
  | txBegin : IndexerEvent
  | chainStateUpdate : Nat → IndexerEvent
  | txCommit : IndexerEvent
  | mmrAppend : Nat → IndexerEvent
deriving DecidableEq

/-- Heartwood activation height (`HEARTWOOD_ACTIVATION` in the zoro
indexer): FlyClient MMR processing starts here. -/
def heartwoodActivation : Nat := 903000

/-- Operation order of one iteration of the zoro indexer loop at
`next_block_height = h`: `store.begin()`, `chain_state_mgr.update`,
`store.commit()`, and then — only for Heartwood-or-later heights, and only
after the commit — the FlyClient MMR append. -/
def zoroIndexerIterationEvents (h : Nat) : List IndexerEvent :=
  [IndexerEvent.txBegin, IndexerEvent.chainStateUpdate h, IndexerEvent.txCommit]
    ++ (if heartwoodActivation ≤ h then [IndexerEvent.mmrAppend h] else [])

/-- Operation order of one iteration of the raito indexer loop at
`next_block_height = h`: the loop performs no MMR append at all. -/
def raitoIndexerIterationEvents (h : Nat) : List IndexerEvent :=
  [IndexerEvent.txBegin, IndexerEvent.chainStateUpdate h, IndexerEvent.txCommit]

/-- An event occurs strictly between a `begin` and a `commit` of the trace. -/
def occursInsideTransaction (e : IndexerEvent) (evs : List IndexerEvent) : Prop :=
  ∃ i, i < evs.length ∧ ∃ j, j < evs.length ∧ ∃ k, k < evs.length ∧
    i < j ∧ j < k
    ∧ evs[i]? = some IndexerEvent.txBegin
    ∧ evs[j]? = some e
    ∧ evs[k]? = some IndexerEvent.txCommit

/-- C1 counterexample: at height 903000 (the first height with FlyClient MMR
processing) the zoro indexer's MMR append is NOT performed between
`store.begin()` and `store.commit()` — it happens only after the commit. -/
theorem mmrAppend_not_inside_transaction :
    ¬ occursInsideTransaction (IndexerEvent.mmrAppend 903000)
        (zoroIndexerIterationEvents 903000) := by
  have hevs : zoroIndexerIterationEvents 903000 =
      [IndexerEvent.txBegin, IndexerEvent.chainStateUpdate 903000,
       IndexerEvent.txCommit, IndexerEvent.mmrAppend 903000] := by decide
  rintro ⟨i, hi, j, hj, k, hk, hij, hjk, hbeg, happ, hcom⟩
  rw [hevs] at hi hj hk hbeg happ hcom
  simp only [List.length_cons, List.length_nil] at hi hj hk
  interval_cases j <;> interval_cases k <;> simp_all

/-- C1 (amended): in every indexer loop iteration the chain-state update is
performed between `store.begin()` and `store.commit()`, but the MMR append
is not part of the transaction: the zoro indexer performs it strictly after
the commit (for Heartwood-or-later heights; below them there is none), and
the raito indexer loop performs no MMR append at all. -/
theorem indexer_commit_precedes_mmr_append :
    ∀ h : Nat,
      occursInsideTransaction (IndexerEvent.chainStateUpdate h)
        (zoroIndexerIterationEvents h)
      ∧ occursInsideTransaction (IndexerEvent.chainStateUpdate h)
        (raitoIndexerIterationEvents h)
      ∧ (heartwoodActivation ≤ h →
          zoroIndexerIterationEvents h =
            [IndexerEvent.txBegin, IndexerEvent.chainStateUpdate h,
             IndexerEvent.txCommit, IndexerEvent.mmrAppend h])
      ∧ (∀ hh : Nat, IndexerEvent.mmrAppend hh ∉ raitoIndexerIterationEvents h) := by
  intro h
  refine ⟨?_, ?_, ?_, ?_⟩
  · by_cases hw : heartwoodActivation ≤ h
    · exact ⟨0, by simp [zoroIndexerIterationEvents, hw], 1,
        by simp [zoroIndexerIterationEvents, hw], 2,
        by simp [zoroIndexerIterationEvents, hw],
        by omega, by omega,
        by simp [zoroIndexerIterationEvents, hw],
        by simp [zoroIndexerIterationEvents, hw],
        by simp [zoroIndexerIterationEvents, hw]⟩
    · exact ⟨0, by simp [zoroIndexerIterationEvents, hw], 1,
        by simp [zoroIndexerIterationEvents, hw], 2,
        by simp [zoroIndexerIterationEvents, hw],
        by omega, by omega,
        by simp [zoroIndexerIterationEvents, hw],
        by simp [zoroIndexerIterationEvents, hw],
        by simp [zoroIndexerIterationEvents, hw]⟩
  · exact ⟨0, by simp [raitoIndexerIterationEvents], 1,
      by simp [raitoIndexerIterationEvents], 2,
      by simp [raitoIndexerIterationEvents],
      by omega, by omega,
      by simp [raitoIndexerIterationEvents],
      by simp [raitoIndexerIterationEvents],
      by simp [raitoIndexerIterationEvents]⟩
  · intro hw
    simp [zoroIndexerIterationEvents, hw]
  · intro hh
    simp [raitoIndexerIterationEvents]

/-- Witness for C1 (amended) at the concrete height 903000. -/
theorem indexer_commit_precedes_mmr_append_witness :
    heartwoodActivation ≤ 903000
    ∧ zoroIndexerIterationEvents 903000 =
        [IndexerEvent.txBegin, IndexerEvent.chainStateUpdate 903000,
         IndexerEvent.txCommit, IndexerEvent.mmrAppend 903000] :=
  ⟨by decide, (indexer_commit_precedes_mmr_append 903000).2.2.1 (by decide)⟩

/-! ## Block MMR model
(`crates/raito-spv-mmr/src/block_mmr.rs`; the MMR internals live in the
external `accumulators` crate, which is not under `src/`, and are modelled
from the spec, sections 4.2 and its glossary.) -/

/-- Modelled from the spec: the root hash of the perfect sub-tree of height
`h` whose leaves are `f o, f (o + 1), ..., f (o + 2 ^ h - 1)`; parents are
computed bottom-up by the injected hasher `combine` applied to the left and
right child. -/
def proot {α : Type} (combine : α → α → α) (f : Nat → α) : Nat → Nat → α
  | 0, o => f o
  | h + 1, o => combine (proot combine f h o) (proot combine f h (o + 2 ^ h))

/-- Modelled from the spec: the sibling hashes along the standard MMR path
from local leaf `k` of the perfect sub-tree of height `h` at offset `o`,
ordered bottom-up. -/
def genPath {α : Type} (combine : α → α → α) (f : Nat → α) :
    Nat → Nat → Nat → List α
  | 0, _, _ => []
  | h + 1, o, k =>
      if k < 2 ^ h then
        genPath combine f h o k ++ [proot combine f h (o + 2 ^ h)]
      else
        genPath combine f h (o + 2 ^ h) (k - 2 ^ h) ++ [proot combine f h o]

/-- Modelled from the spec: recombine a leaf hash with the sibling hashes
along the standard MMR path; the bit `k % 2` at each level decides whether
the running hash is the left or the right child. -/
def foldPath {α : Type} (combine : α → α → α) : Nat → α → List α → α
  | _, x, [] => x
  | k, x, s :: rest =>
      foldPath combine (k / 2) (if k % 2 = 0 then combine x s else combine s x) rest

theorem genPath_length {α : Type} (combine : α → α → α) (f : Nat → α) :
    ∀ h o k, (genPath combine f h o k).length = h := by
  intro h
  induction h with
  | zero => intro o k; rfl
  | succ h ih =>
      intro o k
      by_cases hk : k < 2 ^ h <;> simp [genPath, hk, ih]

theorem foldPath_append {α : Type} (combine : α → α → α) :
    ∀ (p q : List α) (k : Nat) (x : α),
      foldPath combine k x (p ++ q) =
        foldPath combine (k / 2 ^ p.length) (foldPath combine k x p) q := by
  intro p
  induction p with
  | nil => intro q k x; simp [foldPath]
  | cons s p ih =>
      intro q k x
      have hidx : k / 2 / 2 ^ p.length = k / 2 ^ (p.length + 1) := by
        rw [Nat.div_div_eq_div_mul, Nat.pow_succ, Nat.mul_comm]
      simp only [List.cons_append, foldPath, List.length_cons, List.append_eq]
      rw [ih, hidx]

/-- Bit `h` of `K` as seen through `K % 2 ^ (h + 1)`. -/
theorem div_pow_mod_two_of_mod {K h k : Nat} (hmod : K % 2 ^ (h + 1) = k) :
    2 ^ h * (K / 2 ^ h % 2) + K % 2 ^ h = k := by
  have := Nat.mod_pow_succ (x := K) (b := 2) (k := h)
  omega

/-- Main path lemma: recombining the leaf at local index `k` with the
generated sibling path yields the sub-tree root.  The fold may be driven by
any index `K` that agrees with `k` modulo `2 ^ h`. -/
theorem foldPath_genPath {α : Type} (combine : α → α → α) (f : Nat → α) :
    ∀ (h o k K : Nat), k < 2 ^ h → K % 2 ^ h = k →
      foldPath combine K (f (o + k)) (genPath combine f h o k) =
        proot combine f h o := by
  intro h
  induction h with
  | zero =>
      intro o k K hk _
      interval_cases k
      simp [genPath, foldPath, proot]
  | succ h ih =>
      intro o k K hk hmod
      have hpos : 0 < 2 ^ h := Nat.two_pow_pos h
      have hbit := div_pow_mod_two_of_mod hmod
      have hmodlow : K % 2 ^ h = k % 2 ^ h := by
        conv_lhs => rw [← Nat.mod_mod_of_dvd K (Nat.pow_dvd_pow 2 (Nat.le_succ h))]
        rw [hmod]
      by_cases hklow : k < 2 ^ h
      · have hinner : K % 2 ^ h = k := by
          rw [hmodlow, Nat.mod_eq_of_lt hklow]
        have hb : K / 2 ^ h % 2 = 0 := by
          rcases Nat.mod_two_eq_zero_or_one (K / 2 ^ h) with hx | hx
          · exact hx
          · rw [hx] at hbit; omega
        simp only [genPath, if_pos hklow]
        rw [foldPath_append, genPath_length, ih o k K hklow hinner]
        simp [foldPath, hb, proot]
      · have hk2 : k - 2 ^ h < 2 ^ h := by
          have := Nat.pow_succ 2 h
          omega
        have hinner : K % 2 ^ h = k - 2 ^ h := by
          rw [hmodlow]
          have : k % 2 ^ h = (k - 2 ^ h) % 2 ^ h := by
            conv_lhs => rw [show k = (k - 2 ^ h) + 1 * 2 ^ h by omega]
            rw [Nat.add_mul_mod_self_right]
          rw [this, Nat.mod_eq_of_lt hk2]
        have hb : K / 2 ^ h % 2 = 1 := by
          rcases Nat.mod_two_eq_zero_or_one (K / 2 ^ h) with hx | hx
          · rw [hx] at hbit
            have : K % 2 ^ h < 2 ^ h := Nat.mod_lt _ hpos
            omega
          · exact hx
        have harg : o + k = (o + 2 ^ h) + (k - 2 ^ h) := by omega
        simp only [genPath, if_neg hklow]
        rw [harg, foldPath_append, genPath_length,
          ih (o + 2 ^ h) (k - 2 ^ h) K hk2 hinner]
        simp [foldPath, hb, proot]

/-- Modelled from the spec: the peak heights of an MMR with `n` leaves are
the exponents of the binary decomposition of `n`, in decreasing order
("peaks are the right-heavy roots of complete sub-trees").  `expsDescFrom b n`
collects the set bits of `n` strictly below `b`, highest first. -/
def expsDescFrom : Nat → Nat → List Nat
  | 0, _ => []
  | b + 1, n => (if n.testBit b then [b] else []) ++ expsDescFrom b n

/-- Peak heights of an MMR with `n` leaves, highest first. -/
def expsDesc (n : Nat) : List Nat := expsDescFrom n n

/-- Number of leaves covered by a list of peak heights. -/
def sumPows : List Nat → Nat
  | [] => 0
  | e :: es => 2 ^ e + sumPows es

/-- Number of MMR elements (nodes) covered by a list of peak heights: a
peak of height `e` owns `2 ^ (e + 1) - 1` nodes. -/
def ecOf : List Nat → Nat
  | [] => 0
  | e :: es => (2 ^ (e + 1) - 1) + ecOf es

/-- Modelled from the spec: `popcount(leaf_count)`, realized as the number
of peaks. -/
def popCount (n : Nat) : Nat := (expsDesc n).length

/-- Modelled from the spec: `leaf_count_to_mmr_size`,
`element_count = 2 * leaf_count - popcount(leaf_count)`. -/
def mmrSize (n : Nat) : Nat := 2 * n - popCount n

theorem sumPows_expsDescFrom : ∀ b n, sumPows (expsDescFrom b n) = n % 2 ^ b := by
  intro b
  induction b with
  | zero => intro n; simp [expsDescFrom, sumPows, Nat.mod_one]
  | succ b ih =>
      intro n
      have hsplit := Nat.mod_pow_succ (x := n) (b := 2) (k := b)
      by_cases hbit : n.testBit b
      · have h1 : n / 2 ^ b % 2 = 1 := by
          have ht := Nat.testBit_to_div_mod (x := n) (i := b)
          rw [hbit] at ht
          exact of_decide_eq_true ht.symm
        rw [h1] at hsplit
        simp [expsDescFrom, hbit, sumPows, ih]
        omega
      · have h0 : n / 2 ^ b % 2 = 0 := by
          rcases Nat.mod_two_eq_zero_or_one (n / 2 ^ b) with hx | hx
          · exact hx
          · exact absurd (by rw [Nat.testBit_to_div_mod, hx]; rfl) hbit
        rw [h0] at hsplit
        simp [expsDescFrom, hbit, sumPows, ih]
        omega

theorem expsDescFrom_mod : ∀ b n, expsDescFrom b (n % 2 ^ b) = expsDescFrom b n := by
  intro b
  induction b with
  | zero => intro n; rfl
  | succ b ih =>
      intro n
      have hbit : (n % 2 ^ (b + 1)).testBit b = n.testBit b := by
        rw [Nat.testBit_mod_two_pow]
        simp [Nat.lt_succ_self]
      have hmod : n % 2 ^ (b + 1) % 2 ^ b = n % 2 ^ b :=
        Nat.mod_mod_of_dvd n (Nat.pow_dvd_pow 2 (Nat.le_succ b))
      simp only [expsDescFrom, hbit]
      congr 1
      calc expsDescFrom b (n % 2 ^ (b + 1))
      _ = expsDescFrom b (n % 2 ^ (b + 1) % 2 ^ b) := (ih _).symm
      _ = expsDescFrom b (n % 2 ^ b) := by rw [hmod]
      _ = expsDescFrom b n := ih n

theorem expsDescFrom_of_lt : ∀ c b n, b ≤ c → n < 2 ^ b →
    expsDescFrom c n = expsDescFrom b n := by
  intro c
  induction c with
  | zero => intro b n hb _; interval_cases b; rfl
  | succ c ih =>
      intro b n hb hn
      rcases Nat.eq_or_lt_of_le hb with hbc | hbc
      · rw [hbc]
      · have hble : b ≤ c := by omega
        have hlt : n < 2 ^ c := Nat.lt_of_lt_of_le hn (Nat.pow_le_pow_right (by norm_num) hble)
        have hbit : n.testBit c = false := Nat.testBit_lt_two_pow hlt
        simp only [expsDescFrom, hbit, Bool.false_eq_true, if_false, List.nil_append]
        exact ih b n hble hn

theorem sumPows_expsDesc (n : Nat) : sumPows (expsDesc n) = n := by
  rw [expsDesc, sumPows_expsDescFrom, Nat.mod_eq_of_lt (Nat.lt_two_pow n)]

theorem length_le_sumPows : ∀ es : List Nat, es.length ≤ sumPows es := by
  intro es
  induction es with
  | nil => simp [sumPows]
  | cons e es ih =>
      have : 0 < 2 ^ e := Nat.two_pow_pos e
      simp only [List.length_cons, sumPows]
      omega

theorem ecOf_twice : ∀ es : List Nat, ecOf es + es.length = 2 * sumPows es := by
  intro es
  induction es with
  | nil => simp [ecOf, sumPows]
  | cons e es ih =>
      have : 0 < 2 ^ e := Nat.two_pow_pos e
      simp only [ecOf, sumPows, List.length_cons, Nat.pow_succ]
      omega

theorem mmrSize_eq_ecOf (n : Nat) : mmrSize n = ecOf (expsDesc n) := by
  have h1 := ecOf_twice (expsDesc n)
  have h2 := sumPows_expsDesc n
  rw [mmrSize, popCount]
  omega

theorem ecOf_le_two_sumPows : ∀ es : List Nat, ecOf es ≤ 2 * sumPows es := by
  intro es
  have := ecOf_twice es
  omega

/-- Modelled from the spec: find the peak holding leaf `i` given the peak
heights `es` (highest first); returns the peak's index in the peak list,
its height, and the leaf's local index inside the peak's sub-tree. -/
def locatePeak : List Nat → Nat → Option (Nat × Nat × Nat)
  | [], _ => none
  | e :: es, i =>
      if i < 2 ^ e then some (0, e, i)
      else (locatePeak es (i - 2 ^ e)).map (fun r => (r.1 + 1, r.2.1, r.2.2))

theorem locatePeak_correct : ∀ (es : List Nat) (i : Nat), i < sumPows es →
    ∃ p h k, locatePeak es i = some (p, h, k)
      ∧ es.get? p = some h ∧ k < 2 ^ h ∧ sumPows (es.take p) + k = i := by
  intro es
  induction es with
  | nil => intro i hi; simp [sumPows] at hi
  | cons e es ih =>
      intro i hi
      by_cases hlt : i < 2 ^ e
      · exact ⟨0, e, i, by simp [locatePeak, hlt], rfl, hlt, by simp [sumPows]⟩
      · have hi2 : i - 2 ^ e < sumPows es := by
          simp only [sumPows] at hi
          omega
        obtain ⟨p, h, k, hloc, hget, hk, hsum⟩ := ih (i - 2 ^ e) hi2
        refine ⟨p + 1, h, k, ?_, hget, hk, ?_⟩
        · simp [locatePeak, hlt, hloc]
        · simp only [List.take_succ_cons, sumPows]
          omega

/-- Modelled from the spec: the compact peak list (left to right, so highest
peak first) of an MMR whose peak heights are `es` and whose leaves start at
offset `o` of the indexing function `f`. -/
def peaksList {α : Type} (combine : α → α → α) (f : Nat → α) :
    List Nat → Nat → List α
  | [], _ => []
  | e :: es, o => proot combine f e o :: peaksList combine f es (o + 2 ^ e)

theorem peaksList_length {α : Type} (combine : α → α → α) (f : Nat → α) :
    ∀ es o, (peaksList combine f es o).length = es.length := by
  intro es
  induction es with
  | nil => intro o; rfl
  | cons e es ih => intro o; simp [peaksList, ih]

theorem peaksList_get {α : Type} (combine : α → α → α) (f : Nat → α) :
    ∀ (es : List Nat) (o p h : Nat), es.get? p = some h →
      (peaksList combine f es o).get? p =
        some (proot combine f h (o + sumPows (es.take p))) := by
  intro es
  induction es with
  | nil => intro o p h hget; simp at hget
  | cons e es ih =>
      intro o p h hget
      cases p with
      | zero =>
          simp only [List.get?_cons_zero, Option.some.injEq] at hget
          simp [peaksList, List.take, sumPows, hget]
      | succ p =>
          simp only [List.get?_cons_succ] at hget
          have := ih (o + 2 ^ e) p h hget
          simp only [peaksList, List.get?_cons_succ, this, List.take_succ_cons, sumPows]
          congr 2
          omega

/-- Proof data for the inclusion of a block in the MMR
(struct `BlockInclusionProof` in `raito-spv-mmr/src/block_mmr.rs`). -/
structure InclusionProofM (α : Type) where
  peaksHashes : List α
  siblingsHashes : List α
  leafIndex : Nat
  leafCount : Nat

/-- Modelled from the spec: `BlockMMR::generate_proof` on an MMR whose leaf
hashes are the list `L`, restricted to its first `m` leaves (the snapshot
selected by `at_chain_height`; `m = L.length` is the current size).  Nodes
past the snapshot are ignored.  `none` models the out-of-range error. -/
def generateProofM {α : Type} (combine : α → α → α) (d : α) (L : List α)
    (i m : Nat) : Option (InclusionProofM α) :=
  match locatePeak (expsDesc m) i with
  | none => none
  | some (_, h, k) =>
      some { peaksHashes := peaksList combine (fun t => (L.take m).getD t d) (expsDesc m) 0
             siblingsHashes := genPath combine (fun t => (L.take m).getD t d) h (i - k) k
             leafIndex := i
             leafCount := m }

/-- Modelled from the spec: `BlockMMR::verify_proof` — reconstruct the peak
heights from `proof.leaf_count`, recombine the leaf hash `x` with
`proof.siblings_hashes` along the standard MMR path, and check the result
against the peak at the leaf's sub-tree. -/
def verifyProofM {α : Type} [DecidableEq α] (combine : α → α → α) (x : α)
    (pf : InclusionProofM α) : Bool :=
  match locatePeak (expsDesc pf.leafCount) pf.leafIndex with
  | none => false
  | some (p, h, k) =>
      decide (pf.siblingsHashes.length = h)
        && decide (pf.peaksHashes.get? p =
            some (foldPath combine k x pf.siblingsHashes))

/-- Round-trip: a proof generated for leaf `i` of the snapshot with `m`
leaves verifies against the `i`-th leaf hash. -/
theorem generate_verify_roundtrip {α : Type} [DecidableEq α]
    (combine : α → α → α) (d : α) (L : List α) (i m : Nat)
    (him : i < m) (hm : m ≤ L.length) :
    ∃ pf, generateProofM combine d L i m = some pf
      ∧ verifyProofM combine (L.getD i d) pf = true := by
  have hsum : sumPows (expsDesc m) = m := sumPows_expsDesc m
  obtain ⟨p, h, k, hloc, hget, hk, hoff⟩ :=
    locatePeak_correct (expsDesc m) i (by rw [hsum]; exact him)
  refine ⟨_, by rw [generateProofM, hloc], ?_⟩
  rw [verifyProofM]
  simp only [hloc]
  have hlen : (genPath combine (fun t => (L.take m).getD t d) h (i - k) k).length = h :=
    genPath_length _ _ _ _ _
  have hfold :
      foldPath combine k ((L.take m).getD i d)
        (genPath combine (fun t => (L.take m).getD t d) h (i - k) k) =
      proot combine (fun t => (L.take m).getD t d) h (i - k) := by
    have := foldPath_genPath combine (fun t => (L.take m).getD t d)
      h (i - k) k k hk (Nat.mod_eq_of_lt hk)
    rw [show i - k + k = i by omega] at this
    exact this
  have htake : (L.take m).getD i d = L.getD i d := by
    rw [List.getD, List.getD, List.get?_take him]
  have hpeak := peaksList_get combine (fun t => (L.take m).getD t d)
    (expsDesc m) 0 p h hget
  rw [htake] at hfold
  rw [hfold, hpeak]
  simp only [hlen, decide_eq_true_eq, Bool.and_eq_true, decide_eq_true_iff]
  refine ⟨trivial, ?_⟩
  have hoff2 : (0 : Nat) + sumPows ((expsDesc m).take p) = i - k := by omega
  rw [hoff2]

/-- C4: for every MMR built from leaf hashes `L` (any hasher `combine`),
every leaf index `i` and snapshot leaf count `j` with `i ≤ j < block_count`,
the proof returned by `generate_proof(i, Some(j))` verifies against the
`i`-th leaf hash, and likewise `generate_proof(i, None)` against the current
size. -/
theorem mmr_proof_roundtrip {α : Type} [DecidableEq α]
    (combine : α → α → α) (d : α) (L : List α) (i j : Nat)
    (hij : i ≤ j) (hj : j < L.length) :
    (∃ pf, generateProofM combine d L i (j + 1) = some pf
      ∧ verifyProofM combine (L.getD i d) pf = true)
    ∧ (∃ pf, generateProofM combine d L i L.length = some pf
      ∧ verifyProofM combine (L.getD i d) pf = true) :=
  ⟨generate_verify_roundtrip combine d L i (j + 1) (by omega) (by omega),
   generate_verify_roundtrip combine d L i L.length (by omega) (Nat.le_refl _)⟩

/-- Witness for C4 on the three-leaf MMR `[10, 20, 30]` with a concrete
hasher, at `i = 1`, `j = 1`. -/
theorem mmr_proof_roundtrip_witness :
    (1 ≤ 1 ∧ 1 < [10, 20, 30].length)
    ∧ ((∃ pf, generateProofM (fun a b => 2 * a + 3 * b + 5) 0 [10, 20, 30] 1 (1 + 1) = some pf
        ∧ verifyProofM (fun a b => 2 * a + 3 * b + 5) ([10, 20, 30].getD 1 0) pf = true)
      ∧ (∃ pf, generateProofM (fun a b => 2 * a + 3 * b + 5) 0 [10, 20, 30] 1 [10, 20, 30].length = some pf
        ∧ verifyProofM (fun a b => 2 * a + 3 * b + 5) ([10, 20, 30].getD 1 0) pf = true)) :=
  ⟨⟨by decide, by decide⟩,
   mmr_proof_roundtrip (fun a b => 2 * a + 3 * b + 5) 0 [10, 20, 30] 1 1
     (by decide) (by decide)⟩

/-! ## Sparse roots
(`crates/raito-spv-mmr/src/sparse_roots.rs`, `SparseRoots::try_from_peaks`,
and `BlockMMR::get_sparse_roots`) -/

/-- The all-zero digest string, `format ("0x{:064x}", 0)`. -/
def nullRoot : String :=
  "0x0000000000000000000000000000000000000000000000000000000000000000"

/-- Sparse roots of an MMR (struct `SparseRoots` in `sparse_roots.rs`). -/
structure SparseRootsM where
  blockHeight : Nat
  roots : List String
deriving DecidableEq

/-- Modelled from the spec: `elements_count_to_leaf_count` of the
`accumulators` crate (not under `src/`) — the inverse of
`element_count = 2 * leaf_count - popcount(leaf_count)`, erring (`none`)
when no leaf count matches. -/
def elementsCountToLeafCount (ec : Nat) : Option Nat :=
  (List.range (ec + 1)).find? (fun m => mmrSize m == ec)

/-- Floor base-2 logarithm (Rust `usize::ilog2`), in fuel-based structural
form so that it evaluates by kernel reduction; `ilog2Aux` agrees with
`Nat.log2` whenever the fuel covers the argument. -/
def ilog2Aux : Nat → Nat → Nat
  | 0, _ => 0
  | fuel + 1, n => if 2 ≤ n then ilog2Aux fuel (n / 2) + 1 else 0

/-- Floor base-2 logarithm (Rust `usize::ilog2`; the `ilog2()` panic on zero
is handled by the caller). -/
def ilog2 (n : Nat) : Nat := ilog2Aux n n

theorem ilog2Aux_eq_log2 : ∀ fuel n, n ≤ fuel → ilog2Aux fuel n = Nat.log2 n := by
  intro fuel
  induction fuel with
  | zero =>
      intro n hn
      interval_cases n
      simp [ilog2Aux, Nat.log2_zero]
  | succ fuel ih =>
      intro n hn
      by_cases h2 : 2 ≤ n
      · have hdiv : n / 2 ≤ fuel := by
          have := Nat.log2_terminates n h2
          omega
        rw [ilog2Aux, if_pos h2, ih (n / 2) hdiv]
        conv_rhs => rw [Nat.log2]
        rw [if_pos h2]
      · rw [ilog2Aux, if_neg h2]
        conv_rhs => rw [Nat.log2]
        rw [if_neg h2]

theorem ilog2_eq_log2 (n : Nat) : ilog2 n = Nat.log2 n :=
  ilog2Aux_eq_log2 n n (Nat.le_refl n)

/-- The `while` loop of `SparseRoots::try_from_peaks`, as a recursion on the
`max_height` counter (which the loop decrements to zero).  The produced list
is in ascending height order (the source builds it by `insert(0, ...)`).
The unreachable state `max_height = 0` with a nonzero remaining element
count — an infinite loop or an out-of-bounds panic in the source — is
modelled as `none`, as is an out-of-bounds peak access. -/
def sparseLoopM (peaks : List String) : Nat → Nat → Nat → Option (List String)
  | 0, ec, _ => if ec = 0 then some [] else none
  | mh + 1, ec, idx =>
      let eph := 2 ^ (mh + 1) - 1
      if eph ≤ ec then
        match peaks.get? idx with
        | none => none
        | some p => (sparseLoopM peaks mh (ec - eph) (idx + 1)).map
            (fun rest => rest ++ [p])
      else
        (sparseLoopM peaks mh ec idx).map (fun rest => rest ++ [nullRoot])

/-- Translation of `SparseRoots::try_from_peaks`: derive the leaf count,
run the height walk from `ilog2(elements_count) + 1` (an `ilog2` panic on a
zero count is `none`), and append one terminating zero digest when the top
entry is a peak. -/
def tryFromPeaks (peaks : List String) (elementsCount : Nat) :
    Option SparseRootsM :=
  match elementsCountToLeafCount elementsCount with
  | none => none
  | some leafCount =>
      if elementsCount = 0 then none
      else
        match sparseLoopM peaks (ilog2 elementsCount + 1) elementsCount 0 with
        | none => none
        | some roots =>
            match roots.getLast? with
            | none => none
            | some lastEl =>
                let roots2 := if lastEl ≠ nullRoot then roots ++ [nullRoot] else roots
                some { blockHeight := leafCount - 1, roots := roots2 }

/-- `BlockMMR::get_sparse_roots(None)` on an MMR whose leaf hashes are `L`:
the compact peak list and the element count come from the `accumulators`
MMR (modelled from the spec), `try_from_peaks` is translated from the
source. -/
def getSparseRootsM (combine : String → String → String) (L : List String) :
    Option SparseRootsM :=
  tryFromPeaks (peaksList combine (fun t => L.getD t nullRoot) (expsDesc L.length) 0)
    (mmrSize L.length)

theorem lt_pow_of_testBit_false {n b : Nat} (hn : n < 2 ^ (b + 1))
    (hbit : n.testBit b = false) : n < 2 ^ b := by
  have hdiv : n / 2 ^ b < 2 := by
    rw [Nat.div_lt_iff_lt_mul (Nat.two_pow_pos b)]
    rw [Nat.pow_succ] at hn
    omega
  have hmod : n / 2 ^ b % 2 ≠ 1 := by
    intro h1
    rw [Nat.testBit_to_div_mod, h1] at hbit
    simp at hbit
  have hz : n / 2 ^ b = 0 := by
    generalize hq : n / 2 ^ b = x at hdiv hmod
    rcases Nat.mod_two_eq_zero_or_one x with hx | hx
    · omega
    · exact absurd hx hmod
  have := Nat.mod_eq_of_lt (a := n) (b := 2 ^ b)
  rcases Nat.lt_or_ge n (2 ^ b) with h | h
  · exact h
  · exfalso
    have : 1 * 2 ^ b ≤ n := by omega
    have : 1 ≤ n / 2 ^ b := (Nat.le_div_iff_mul_le (Nat.two_pow_pos b)).mpr this
    omega

theorem testBit_log2_self {n : Nat} (hn : n ≠ 0) :
    n.testBit (Nat.log2 n) = true := by
  have h1 : 2 ^ Nat.log2 n ≤ n := (Nat.le_log2 hn).mp (Nat.le_refl _)
  have h2 : n < 2 ^ (Nat.log2 n + 1) := (Nat.log2_lt hn).mp (Nat.lt_succ_self _)
  have hdiv : n / 2 ^ Nat.log2 n = 1 := by
    apply Nat.div_eq_of_lt_le
    · omega
    · rw [Nat.pow_succ] at h2
      omega
  rw [Nat.testBit_to_div_mod, hdiv]
  rfl

theorem expsDescFrom_nil : ∀ b n, (∀ j, j < b → n.testBit j = false) →
    expsDescFrom b n = [] := by
  intro b
  induction b with
  | zero => intro n _; rfl
  | succ b ih =>
      intro n hbits
      rw [expsDescFrom, hbits b (Nat.lt_succ_self b)]
      simp only [Bool.false_eq_true, if_false, List.nil_append]
      exact ih n (fun j hj => hbits j (by omega))

theorem expsDescFrom_any_bound {b c n : Nat} (hb : n < 2 ^ b) (hc : n < 2 ^ c) :
    expsDescFrom b n = expsDescFrom c n := by
  rcases Nat.le_total b c with h | h
  · exact (expsDescFrom_of_lt c b n h hb).symm
  · exact expsDescFrom_of_lt b c n h hc

theorem expsDesc_cons {n : Nat} (hn : n ≠ 0) :
    expsDesc n = Nat.log2 n :: expsDescFrom (Nat.log2 n) n := by
  have h2 : n < 2 ^ (Nat.log2 n + 1) := (Nat.log2_lt hn).mp (Nat.lt_succ_self _)
  rw [expsDesc, expsDescFrom_any_bound (Nat.lt_two_pow n) h2, expsDescFrom,
    testBit_log2_self hn]
  rfl

theorem expsDesc_two_pow (k : Nat) : expsDesc (2 ^ k) = [k] := by
  have hk : (2 : Nat) ^ k ≠ 0 := Nat.pos_iff_ne_zero.mp (Nat.two_pow_pos k)
  rw [expsDesc_cons hk, Nat.log2_two_pow]
  rw [expsDescFrom_nil k (2 ^ k) (fun j hj => Nat.testBit_two_pow_of_ne (by omega))]

/-- Height walk of `try_from_peaks` on a valid MMR element count: starting
the walk at height bound `mh` with the element count of the peaks of `n`
(all below `mh`) succeeds, produces one entry per height, consumes peaks
exactly at the set bits of `n`, and fills every other height with the zero
digest. -/
theorem sparseLoopM_spec : ∀ (mh n idx : Nat) (P : List String),
    n < 2 ^ mh → idx + (expsDescFrom mh n).length ≤ P.length →
    ∃ roots, sparseLoopM P mh (ecOf (expsDescFrom mh n)) idx = some roots
      ∧ roots.length = mh
      ∧ ∀ h, h < mh →
          (n.testBit h = true → roots.getD h nullRoot ∈ P)
          ∧ (n.testBit h = false → roots.getD h nullRoot = nullRoot) := by
  intro mh
  induction mh with
  | zero =>
      intro n idx P hn _
      interval_cases n
      refine ⟨[], by simp [sparseLoopM, expsDescFrom, ecOf], rfl, ?_⟩
      intro h hh
      omega
  | succ mh ih =>
      intro n idx P hn hlen
      have hpow1 : 1 ≤ 2 ^ (mh + 1) := Nat.two_pow_pos (mh + 1)
      by_cases hbit : n.testBit mh
      · have hes : expsDescFrom (mh + 1) n = mh :: expsDescFrom mh n := by
          simp [expsDescFrom, hbit]
        rw [hes] at hlen
        simp only [List.length_cons] at hlen
        have hidxlt : idx < P.length := by omega
        obtain ⟨p, hp⟩ : ∃ p, P.get? idx = some p := by
          cases hP : P.get? idx with
          | none => exact absurd (List.get?_eq_none.mp hP) (by omega)
          | some p => exact ⟨p, rfl⟩
        have hmodlt : n % 2 ^ mh < 2 ^ mh := Nat.mod_lt n (Nat.two_pow_pos mh)
        have hmod_es : expsDescFrom mh (n % 2 ^ mh) = expsDescFrom mh n :=
          expsDescFrom_mod mh n
        obtain ⟨rest, hrest, hrlen, hrent⟩ := ih (n % 2 ^ mh) (idx + 1) P hmodlt
          (by rw [hmod_es]; omega)
        rw [hmod_es] at hrest
        have hec : ecOf (expsDescFrom (mh + 1) n) =
            (2 ^ (mh + 1) - 1) + ecOf (expsDescFrom mh n) := by rw [hes]; rfl
        refine ⟨rest ++ [p], ?_, ?_, ?_⟩
        · simp only [sparseLoopM, hec]
          rw [if_pos (by omega), hp,
            show (2 ^ (mh + 1) - 1) + ecOf (expsDescFrom mh n) - (2 ^ (mh + 1) - 1)
              = ecOf (expsDescFrom mh n) by omega,
            hrest]
          rfl
        · simp [hrlen]
        · intro h hh
          rcases Nat.lt_or_ge h mh with hlt | hge
          · have hgd : (rest ++ [p]).getD h nullRoot = rest.getD h nullRoot :=
              List.getD_append _ _ _ _ (by omega)
            have htb : (n % 2 ^ mh).testBit h = n.testBit h := by
              rw [Nat.testBit_mod_two_pow]
              simp [hlt]
            refine ⟨fun ht => ?_, fun hf => ?_⟩
            · rw [hgd]
              exact (hrent h hlt).1 (by rw [htb]; exact ht)
            · rw [hgd]
              exact (hrent h hlt).2 (by rw [htb]; exact hf)
          · have hhm : h = mh := by omega
            subst hhm
            have hgd : (rest ++ [p]).getD h nullRoot = p := by
              rw [List.getD_append_right _ _ _ _ (by omega), hrlen]
              simp
            refine ⟨fun _ => ?_, fun hf => ?_⟩
            · rw [hgd]
              exact List.get?_mem hp
            · rw [hbit] at hf
              cases hf
      · have hbit' : n.testBit mh = false := by
          revert hbit
          cases n.testBit mh <;> simp
        have hnlt : n < 2 ^ mh := lt_pow_of_testBit_false hn hbit'
        have hes : expsDescFrom (mh + 1) n = expsDescFrom mh n := by
          simp [expsDescFrom, hbit']
        rw [hes] at hlen
        obtain ⟨rest, hrest, hrlen, hrent⟩ := ih n idx P hnlt hlen
        have hecle : ecOf (expsDescFrom mh n) < 2 ^ (mh + 1) - 1 := by
          have h1 := ecOf_le_two_sumPows (expsDescFrom mh n)
          have h2 := sumPows_expsDescFrom mh n
          rw [Nat.mod_eq_of_lt hnlt] at h2
          have h3 : 0 < 2 ^ mh := Nat.two_pow_pos mh
          have h4 : (2 : Nat) ^ (mh + 1) = 2 * 2 ^ mh := by
            rw [Nat.pow_succ, Nat.mul_comm]
          omega
        refine ⟨rest ++ [nullRoot], ?_, ?_, ?_⟩
        · simp only [sparseLoopM, hes]
          rw [if_neg (by omega), hrest]
          rfl
        · simp [hrlen]
        · intro h hh
          rcases Nat.lt_or_ge h mh with hlt | hge
          · have hgd : (rest ++ [nullRoot]).getD h nullRoot = rest.getD h nullRoot :=
              List.getD_append _ _ _ _ (by omega)
            refine ⟨fun ht => ?_, fun hf => ?_⟩
            · rw [hgd]
              exact (hrent h hlt).1 ht
            · rw [hgd]
              exact (hrent h hlt).2 hf
          · have hhm : h = mh := by omega
            subst hhm
            have hgd : (rest ++ [nullRoot]).getD h nullRoot = nullRoot := by
              rw [List.getD_append_right _ _ _ _ (by omega), hrlen]
              simp
            refine ⟨fun ht => ?_, fun _ => hgd⟩
            rw [hbit'] at ht
            cases ht

theorem get?_eq_some_getD {α : Type} (l : List α) (n : Nat) (d : α)
    (h : n < l.length) : l.get? n = some (l.getD n d) := by
  rw [List.getD_eq_getD_get?]
  cases hx : l.get? n with
  | none => exact absurd (List.get?_eq_none.mp hx) (by omega)
  | some a => rfl

/-- C5 (amended): for every MMR with `n > 0` leaves whose peak hashes are
not the zero digest, `get_sparse_roots(None)` succeeds; the roots vector has
length `floor(log2 e) + 1` — one more, `floor(log2 e) + 2`, exactly when `n`
is a power of two — where `e = 2n - popcount(n)`; its last entry is the zero
digest; and its entry at height `h` is non-zero exactly when the MMR has a
peak at height `h` (bit `h` of `n` is set). -/
theorem sparse_roots_shape (combine : String → String → String) (L : List String)
    (hne : L ≠ [])
    (hnz : ∀ x ∈ peaksList combine (fun t => L.getD t nullRoot) (expsDesc L.length) 0,
      x ≠ nullRoot) :
    ∃ sr, getSparseRootsM combine L = some sr
      ∧ sr.roots.length =
          Nat.log2 (mmrSize L.length) + 1
            + (if L.length = 2 ^ Nat.log2 L.length then 1 else 0)
      ∧ sr.roots.getLast? = some nullRoot
      ∧ ∀ h, (sr.roots.getD h nullRoot ≠ nullRoot ↔ L.length.testBit h = true) := by
  have hn0 : L.length ≠ 0 := fun h => hne (List.length_eq_zero.mp h)
  have hecOf : mmrSize L.length = ecOf (expsDesc L.length) := mmrSize_eq_ecOf L.length
  have hsum := sumPows_expsDesc L.length
  have hlenle := length_le_sumPows (expsDesc L.length)
  have hnle : L.length ≤ mmrSize L.length := by
    rw [mmrSize, popCount]
    omega
  have hec0 : mmrSize L.length ≠ 0 := by omega
  obtain ⟨m, hm⟩ : ∃ m, elementsCountToLeafCount (mmrSize L.length) = some m := by
    rw [← Option.isSome_iff_exists, elementsCountToLeafCount]
    rw [List.find?_isSome]
    exact ⟨L.length, List.mem_range.mpr (by omega), by simp⟩
  have hlog_ec : mmrSize L.length < 2 ^ (Nat.log2 (mmrSize L.length) + 1) :=
    (Nat.log2_lt hec0).mp (Nat.lt_succ_self _)
  have hbound : L.length < 2 ^ (Nat.log2 (mmrSize L.length) + 1) := by omega
  have heq : expsDescFrom (Nat.log2 (mmrSize L.length) + 1) L.length = expsDesc L.length :=
    expsDescFrom_any_bound hbound (Nat.lt_two_pow L.length)
  have hPlen : (peaksList combine (fun t => L.getD t nullRoot) (expsDesc L.length) 0).length
      = (expsDesc L.length).length :=
    peaksList_length combine (fun t => L.getD t nullRoot) (expsDesc L.length) 0
  obtain ⟨roots, hloop, hrootlen, hent⟩ :=
    sparseLoopM_spec (Nat.log2 (mmrSize L.length) + 1) L.length 0
      (peaksList combine (fun t => L.getD t nullRoot) (expsDesc L.length) 0)
      hbound (by rw [heq]; omega)
  rw [heq, ← hecOf] at hloop
  have hbitsabove : ∀ h, Nat.log2 (mmrSize L.length) + 1 ≤ h → L.length.testBit h = false :=
    fun h hh => Nat.testBit_lt_two_pow
      (Nat.lt_of_lt_of_le hbound (Nat.pow_le_pow_right (by norm_num) hh))
  by_cases hpow : L.length = 2 ^ Nat.log2 L.length
  · -- power of two: a trailing zero entry is appended
    have hexps : expsDesc L.length = [Nat.log2 L.length] := by
      conv_lhs => rw [hpow]
      exact expsDesc_two_pow (Nat.log2 L.length)
    have hecval : mmrSize L.length = 2 ^ (Nat.log2 L.length + 1) - 1 := by
      rw [hecOf, hexps]
      simp [ecOf]
    have hlogec : Nat.log2 (mmrSize L.length) = Nat.log2 L.length := by
      have hp1 := Nat.two_pow_pos (Nat.log2 L.length)
      have hpow2 : (2 : Nat) ^ (Nat.log2 L.length + 1) = 2 * 2 ^ Nat.log2 L.length := by
        rw [Nat.pow_succ, Nat.mul_comm]
      have hle : 2 ^ Nat.log2 L.length ≤ mmrSize L.length := by
        rw [hecval]
        omega
      have hlt : mmrSize L.length < 2 ^ (Nat.log2 L.length + 1) := by
        rw [hecval]
        omega
      have ha := (Nat.le_log2 hec0).mpr hle
      have hb := (Nat.log2_lt hec0).mpr hlt
      omega
    have htop : L.length.testBit (Nat.log2 (mmrSize L.length)) = true := by
      rw [hlogec]
      conv_lhs => rw [hpow]
      rw [Nat.log2_two_pow]
      exact Nat.testBit_two_pow_self
    have hlastmem := (hent (Nat.log2 (mmrSize L.length)) (by omega)).1 htop
    have hlastne : roots.getD (Nat.log2 (mmrSize L.length)) nullRoot ≠ nullRoot :=
      hnz _ hlastmem
    have hgetlast : roots.getLast? =
        some (roots.getD (Nat.log2 (mmrSize L.length)) nullRoot) := by
      rw [List.getLast?_eq_get?, hrootlen, Nat.add_sub_cancel]
      exact get?_eq_some_getD roots _ nullRoot (by omega)
    have hlastne2 : ¬ roots[(mmrSize L.length).log2]?.getD nullRoot = nullRoot := by
      rw [← List.get?_eq_getElem?, ← List.getD_eq_getD_get?]
      exact hlastne
    refine ⟨⟨m - 1, roots ++ [nullRoot]⟩, ?_, ?_, ?_, ?_⟩
    · simp only [getSparseRootsM, tryFromPeaks, hm, if_neg hec0, ilog2_eq_log2,
        hloop, hgetlast]
      simp [hlastne2]
    · simp only [List.length_append, List.length_cons, List.length_nil, hrootlen,
        if_pos hpow]
    · exact List.getLast?_concat roots
    · intro h
      rcases Nat.lt_or_ge h (Nat.log2 (mmrSize L.length) + 1) with hlt | hge
      · rw [List.getD_append _ _ _ _ (by omega)]
        constructor
        · intro hne2
          by_contra hf
          exact hne2 ((hent h hlt).2 (by revert hf; cases L.length.testBit h <;> simp))
        · intro ht
          exact hnz _ ((hent h hlt).1 ht)
      · have hval : (roots ++ [nullRoot]).getD h nullRoot = nullRoot := by
          rcases Nat.eq_or_lt_of_le hge with heq2 | hgt
          · rw [List.getD_append_right _ _ _ _ (by omega), hrootlen, ← heq2,
              Nat.sub_self]
            rfl
          · exact List.getD_eq_default _ _ (by simp [hrootlen]; omega)
        rw [hval, hbitsabove h hge]
        simp
  · -- not a power of two: the walk already ends with a zero entry
    have hcons : expsDesc L.length =
        Nat.log2 L.length :: expsDescFrom (Nat.log2 L.length) L.length :=
      expsDesc_cons hn0
    have h1 : 2 ^ Nat.log2 L.length ≤ L.length := (Nat.le_log2 hn0).mp (Nat.le_refl _)
    have h2 : L.length < 2 ^ (Nat.log2 L.length + 1) :=
      (Nat.log2_lt hn0).mp (Nat.lt_succ_self _)
    have hpow2 : (2 : Nat) ^ (Nat.log2 L.length + 1) = 2 * 2 ^ Nat.log2 L.length := by
      rw [Nat.pow_succ, Nat.mul_comm]
    have hsumrest : sumPows (expsDescFrom (Nat.log2 L.length) L.length)
        = L.length - 2 ^ Nat.log2 L.length := by
      rw [sumPows_expsDescFrom, Nat.mod_eq_sub_mod h1,
        Nat.mod_eq_of_lt (by omega)]
    have hrestne : expsDescFrom (Nat.log2 L.length) L.length ≠ [] := by
      intro hnil
      rw [hnil] at hsumrest
      simp only [sumPows] at hsumrest
      exact hpow (by omega)
    obtain ⟨e, es, hes⟩ := List.exists_cons_of_ne_nil hrestne
    have hecge : 2 ^ (Nat.log2 L.length + 1) ≤ mmrSize L.length := by
      rw [hecOf, hcons, hes]
      simp only [ecOf]
      have hpe := Nat.two_pow_pos (e + 1)
      have hpk := Nat.two_pow_pos (Nat.log2 L.length + 1)
      omega
    have hlogge : Nat.log2 L.length + 1 ≤ Nat.log2 (mmrSize L.length) :=
      (Nat.le_log2 hec0).mpr hecge
    have htop : L.length.testBit (Nat.log2 (mmrSize L.length)) = false :=
      Nat.testBit_lt_two_pow
        (Nat.lt_of_lt_of_le h2 (Nat.pow_le_pow_right (by norm_num) hlogge))
    have hlastnull : roots.getD (Nat.log2 (mmrSize L.length)) nullRoot = nullRoot :=
      (hent (Nat.log2 (mmrSize L.length)) (by omega)).2 htop
    have hgetlast : roots.getLast? = some nullRoot := by
      rw [List.getLast?_eq_get?, hrootlen, Nat.add_sub_cancel,
        get?_eq_some_getD roots _ nullRoot (by omega), hlastnull]
    refine ⟨⟨m - 1, roots⟩, ?_, ?_, ?_, ?_⟩
    · simp only [getSparseRootsM, tryFromPeaks, hm, if_neg hec0, ilog2_eq_log2,
        hloop, hgetlast]
      simp
    · simp only [hrootlen, if_neg hpow]
    · exact hgetlast
    · intro h
      rcases Nat.lt_or_ge h (Nat.log2 (mmrSize L.length) + 1) with hlt | hge
      · constructor
        · intro hne2
          by_contra hf
          exact hne2 ((hent h hlt).2 (by revert hf; cases L.length.testBit h <;> simp))
        · intro ht
          exact hnz _ ((hent h hlt).1 ht)
      · have hval : roots.getD h nullRoot = nullRoot :=
          List.getD_eq_default _ _ (by omega)
        rw [hval, hbitsabove h hge]
        simp

/-- C5 counterexample: on an MMR with 3 leaves (element count
`e = 2 * 3 - popcount 3 = 4`), the sparse-roots vector has length 3, not
`floor(log2 e) + 2 = 4` as the claim states. -/
theorem sparse_roots_length_counterexample :
    (getSparseRootsM (fun a b => a ++ b) ["a", "b", "c"]).map (fun sr => sr.roots.length)
      = some 3
    ∧ 3 ≠ Nat.log2 (mmrSize 3) + 2 := by
  refine ⟨by decide, ?_⟩
  rw [show mmrSize 3 = 2 ^ 2 from by decide, Nat.log2_two_pow]
  decide

/-- Witness for C5 (amended) on the three-leaf MMR with concatenation as
the hasher. -/
theorem sparse_roots_shape_witness :
    ((["a", "b", "c"] : List String) ≠ []
      ∧ ∀ x ∈ peaksList (fun a b => a ++ b)
          (fun t => (["a", "b", "c"] : List String).getD t nullRoot)
          (expsDesc (["a", "b", "c"] : List String).length) 0, x ≠ nullRoot)
    ∧ ∃ sr, getSparseRootsM (fun a b => a ++ b) ["a", "b", "c"] = some sr
      ∧ sr.roots.length =
          Nat.log2 (mmrSize (["a", "b", "c"] : List String).length) + 1
            + (if (["a", "b", "c"] : List String).length
                = 2 ^ Nat.log2 (["a", "b", "c"] : List String).length then 1 else 0)
      ∧ sr.roots.getLast? = some nullRoot
      ∧ ∀ h, (sr.roots.getD h nullRoot ≠ nullRoot
          ↔ (["a", "b", "c"] : List String).length.testBit h = true) :=
  ⟨⟨by decide, by decide⟩,
   sparse_roots_shape (fun a b => a ++ b) ["a", "b", "c"] (by decide) (by decide)⟩
